import Mathlib

/-!
Verification development for the service-dependency-map tool
(resolve_deps.py).  The tool enumerates TypeScript service files,
derives service names, extracts same-directory imports by pattern
matching, and emits a Graphviz graph whose node identifiers are
hashed service names.

The Python source is shallowly embedded below: pure functions become
Lean functions on lists and strings; filesystem reads become explicit
inputs (the directory listing, the file contents).  Machine integers
in the MD5 computation are Nat with explicit reduction modulo 2 ^ 32.
-/

namespace ResolveDeps

/-! ## Python string helpers

Python str.replace with pattern ".ts" and empty replacement removes
every non-overlapping occurrence of ".ts", scanning left to right.
Python str.endswith is a plain suffix test.  Both are embedded on
character lists. -/

/-- Embedding of the Python expression s.replace with arguments ".ts"
and the empty string: removes every occurrence of the three characters
dot, t, s, scanning left to right without overlap. -/
def stripTsL : List Char → List Char
  | [] => []
  | [c] => [c]
  | [c, c2] => [c, c2]
  | c :: c2 :: c3 :: rest =>
    if c = '.' ∧ c2 = 't' ∧ c3 = 's' then stripTsL rest
    else c :: stripTsL (c2 :: c3 :: rest)

/-- String-level wrapper for stripTsL. -/
def replace_ts (s : String) : String := String.mk (stripTsL s.data)

/-- Decides whether the three-character pattern dot, t, s occurs in a
character list. -/
def containsTsL : List Char → Bool
  | c :: c2 :: c3 :: rest =>
    (decide (c = '.' ∧ c2 = 't' ∧ c3 = 's')) || containsTsL (c2 :: c3 :: rest)
  | _ => false

/-- Python str.endswith as a suffix test on character lists. -/
def pyEndsWith (s suf : String) : Bool := suf.data.isSuffixOf s.data

/-- Generic substring search: containsSub pat l is true when pat
occurs contiguously inside l. -/
def containsSub (pat : List Char) : List Char → Bool
  | [] => pat.isPrefixOf []
  | c :: rest => pat.isPrefixOf (c :: rest) || containsSub pat rest

/-! ## File enumeration and name extraction (lines 15 to 25)

get_ts_files filters a directory listing; the listing itself (the
result of os.listdir) is the explicit input.  get_service_names maps
the Python replace over the filenames. -/

/-- Embedding of get_ts_files: keeps the filenames ending in ".ts"
that do not end in ".test.ts". -/
def get_ts_files (dirListing : List String) : List String :=
  dirListing.filter (fun f => pyEndsWith f ".ts" && !(pyEndsWith f ".test.ts"))

/-- Embedding of get_service_names: applies replace with pattern
".ts" and empty replacement to every filename. -/
def get_service_names (ts_files : List String) : List String :=
  ts_files.map (fun file => replace_ts file)

/-! ## Dependency parser (lines 27 to 44)

The Python regex on line 34 matches: the word import, whitespace, a
binding form (either a brace-delimited run of non-closing-brace
characters or a run of word characters), whitespace, the word from,
whitespace, a quote, a dot, a slash, a captured run of one or more
non-quote characters, and a quote.  Every repetition in the pattern
ranges over a character class disjoint from the character that must
follow it, so greedy matching with committed choice is equivalent to
the backtracking regex semantics.  re.findall scans left to right,
collecting non-overlapping matches and advancing one character when
no match starts at the current position. -/

/-- Word characters, embedding the regex class backslash-w (ASCII
letters, digits and underscore; the tool is used on ASCII sources). -/
def isWordChar (c : Char) : Bool := c.isAlphanum || c = '_'

/-- Whitespace characters, embedding the regex class backslash-s. -/
def isSpaceChar (c : Char) : Bool :=
  c = ' ' || c = '\t' || c = '\n' || c = '\r' || c = '\x0b' || c = '\x0c'

/-- The single-quote character. -/
def quoteChar1 : Char := Char.ofNat 39

/-- The double-quote character. -/
def quoteChar2 : Char := Char.ofNat 34

/-- Quote characters, embedding the regex class of the two quotes. -/
def isQuoteChar (c : Char) : Bool := c = quoteChar1 || c = quoteChar2

/-- The opening curly brace character. -/
def braceOpen : Char := Char.ofNat 123

/-- The closing curly brace character. -/
def braceClose : Char := Char.ofNat 125

/-- Consumes the literal character list l from the front of the
input, returning the rest on success. -/
def dropLit : List Char → List Char → Option (List Char)
  | [], cs => some cs
  | _ :: _, [] => none
  | l :: ls, c :: cs => if c = l then dropLit ls cs else none

/-- Consumes one or more characters satisfying p, greedily. -/
def munch1 (p : Char → Bool) : List Char → Option (List Char)
  | [] => none
  | c :: cs => if p c then some (cs.dropWhile p) else none

/-- Consumes one expected character. -/
def expectChar (a : Char) : List Char → Option (List Char)
  | [] => none
  | c :: cs => if c = a then some cs else none

/-- Consumes one character satisfying p. -/
def expectPred (p : Char → Bool) : List Char → Option (List Char)
  | [] => none
  | c :: cs => if p c then some cs else none

/-- The binding form of the import statement: a brace-delimited run of
non-closing-brace characters, or a run of one or more word characters.
The branches start with disjoint characters, so committed choice
matches the regex alternation. -/
def bindingForm : List Char → Option (List Char)
  | [] => none
  | c :: cs =>
    if c = braceOpen then
      match cs.dropWhile (fun d => !(d = braceClose)) with
      | [] => none
      | _ :: rest => some rest
    else if isWordChar c then some (cs.dropWhile isWordChar) else none

/-- Captures a run of one or more non-quote characters, greedily,
returning the capture and the remaining input. -/
def captureNoQuote1 : List Char → Option (List Char × List Char)
  | [] => none
  | c :: cs =>
    if isQuoteChar c then none
    else some (c :: cs.takeWhile (fun d => !(isQuoteChar d)),
               cs.dropWhile (fun d => !(isQuoteChar d)))

/-- Attempts to match the import regex at the start of the input,
returning the captured import path and the input after the match. -/
def matchAt (cs : List Char) : Option (List Char × List Char) :=
  (dropLit "import".data cs).bind fun cs1 =>
  (munch1 isSpaceChar cs1).bind fun cs2 =>
  (bindingForm cs2).bind fun cs3 =>
  (munch1 isSpaceChar cs3).bind fun cs4 =>
  (dropLit "from".data cs4).bind fun cs5 =>
  (munch1 isSpaceChar cs5).bind fun cs6 =>
  (expectPred isQuoteChar cs6).bind fun cs7 =>
  (expectChar '.' cs7).bind fun cs8 =>
  (expectChar '/' cs8).bind fun cs9 =>
  (captureNoQuote1 cs9).bind fun pr =>
  (expectPred isQuoteChar pr.2).bind fun cs11 =>
  some (pr.1, cs11)

/-- Scanning loop of re.findall, with structural fuel.  Each step
either emits the match starting at the current position and continues
after it, or advances one character.  Any fuel of at least the input
length yields the same, complete result (see findallFuel_fuel_irrel). -/
def findallFuel : Nat → List Char → List (List Char)
  | 0, _ => []
  | fuel + 1, cs =>
    match matchAt cs with
    | some (cap, rest) => cap :: findallFuel fuel rest
    | none =>
      match cs with
      | [] => []
      | _ :: cs2 => findallFuel fuel cs2

/-- Embedding of re.findall for the import regex: all captures of
non-overlapping matches, in source order. -/
def findall (content : String) : List String :=
  (findallFuel content.data.length content.data).map (fun l => String.mk l)

/-- The accumulation loop of get_service_dependencies, lines 38 to 42:
applies the Python replace with pattern ".ts" and empty replacement to
each match and appends the results in order. -/
def collectServiceNames : List String → List String
  | [] => []
  | m :: ms => replace_ts m :: collectServiceNames ms

/-- Embedding of get_service_dependencies, with the file content (the
result of the read on line 32) as the explicit input. -/
def get_service_dependencies (content : String) : List String :=
  collectServiceNames (findall content)

/-! ## MD5 (hashlib.md5, used on line 66)

The MD5 digest is embedded on Nat with explicit reduction modulo
2 ^ 32; the message is the UTF-8 encoding of the service name. -/

/-- UTF-8 encoding of a single character, as a list of byte values. -/
def utf8Bytes (c : Char) : List Nat :=
  let n := c.toNat
  if n < 128 then [n]
  else if n < 2048 then [192 + n / 64, 128 + n % 64]
  else if n < 65536 then [224 + n / 4096, 128 + (n / 64) % 64, 128 + n % 64]
  else [240 + n / 262144, 128 + (n / 4096) % 64, 128 + (n / 64) % 64, 128 + n % 64]

/-- UTF-8 encoding of a string, as a list of byte values (the Python
expression service_name.encode()). -/
def strBytes (s : String) : List Nat := s.data.flatMap utf8Bytes

/-- The per-round left-rotation amounts of MD5. -/
def md5Shift : List Nat :=
  [7, 12, 17, 22, 7, 12, 17, 22, 7, 12, 17, 22, 7, 12, 17, 22,
   5, 9, 14, 20, 5, 9, 14, 20, 5, 9, 14, 20, 5, 9, 14, 20,
   4, 11, 16, 23, 4, 11, 16, 23, 4, 11, 16, 23, 4, 11, 16, 23,
   6, 10, 15, 21, 6, 10, 15, 21, 6, 10, 15, 21, 6, 10, 15, 21]

/-- The per-round additive constants of MD5 (the integer parts of
2 ^ 32 times the absolute sines of 1 to 64). -/
def md5K : List Nat :=
  [0xd76aa478, 0xe8c7b756, 0x242070db, 0xc1bdceee,
   0xf57c0faf, 0x4787c62a, 0xa8304613, 0xfd469501,
   0x698098d8, 0x8b44f7af, 0xffff5bb1, 0x895cd7be,
   0x6b901122, 0xfd987193, 0xa679438e, 0x49b40821,
   0xf61e2562, 0xc040b340, 0x265e5a51, 0xe9b6c7aa,
   0xd62f105d, 0x02441453, 0xd8a1e681, 0xe7d3fbc8,
   0x21e1cde6, 0xc33707d6, 0xf4d50d87, 0x455a14ed,
   0xa9e3e905, 0xfcefa3f8, 0x676f02d9, 0x8d2a4c8a,
   0xfffa3942, 0x8771f681, 0x6d9d6122, 0xfde5380c,
   0xa4beea44, 0x4bdecfa9, 0xf6bb4b60, 0xbebfbc70,
   0x289b7ec6, 0xeaa127fa, 0xd4ef3085, 0x04881d05,
   0xd9d4d039, 0xe6db99e5, 0x1fa27cf8, 0xc4ac5665,
   0xf4292244, 0x432aff97, 0xab9423a7, 0xfc93a039,
   0x655b59c3, 0x8f0ccc92, 0xffeff47d, 0x85845dd1,
   0x6fa87e4f, 0xfe2ce6e0, 0xa3014314, 0x4e0811a1,
   0xf7537e82, 0xbd3af235, 0x2ad7d2bb, 0xeb86d391]

/-- Left rotation of a 32-bit word by n places. -/
def rotl32 (x n : Nat) : Nat :=
  ((x <<< n) % 4294967296) ||| (x >>> (32 - n))

/-- Bitwise complement within 32 bits. -/
def not32 (x : Nat) : Nat := 4294967295 ^^^ x

/-- The four least-significant bytes of a 32-bit word, little-endian. -/
def le4 (x : Nat) : List Nat :=
  [x % 256, (x / 256) % 256, (x / 65536) % 256, (x / 16777216) % 256]

/-- The eight least-significant bytes of a 64-bit value, little-endian. -/
def le8 (x : Nat) : List Nat :=
  [x % 256, (x / 2 ^ 8) % 256, (x / 2 ^ 16) % 256, (x / 2 ^ 24) % 256,
   (x / 2 ^ 32) % 256, (x / 2 ^ 40) % 256, (x / 2 ^ 48) % 256, (x / 2 ^ 56) % 256]

/-- MD5 padding: a 0x80 byte, zero bytes up to 56 modulo 64, then the
bit length modulo 2 ^ 64, little-endian. -/
def md5Pad (msg : List Nat) : List Nat :=
  msg ++ [128] ++ List.replicate ((119 - msg.length % 64) % 64) 0
      ++ le8 ((msg.length * 8) % 2 ^ 64)

/-- Groups four consecutive little-endian bytes into 32-bit words. -/
def bytesToWords : List Nat → List Nat
  | b0 :: b1 :: b2 :: b3 :: rest =>
    (b0 + 256 * b1 + 65536 * b2 + 16777216 * b3) :: bytesToWords rest
  | _ => []

/-- Splits a byte list into 64-byte blocks, with structural fuel; a
fuel of at least the list length is always sufficient because every
step consumes at least one byte. -/
def chunks64Fuel : Nat → List Nat → List (List Nat)
  | 0, _ => []
  | _ + 1, [] => []
  | f + 1, b :: rest => (b :: rest).take 64 :: chunks64Fuel f ((b :: rest).drop 64)

/-- Splits a byte list into 64-byte blocks. -/
def chunks64 (l : List Nat) : List (List Nat) := chunks64Fuel l.length l

/-- One MD5 round: given the state, the message words and the round
index, produces the next state. -/
def md5Round (m : List Nat) (st : Nat × Nat × Nat × Nat) (i : Nat) :
    Nat × Nat × Nat × Nat :=
  let a := st.1
  let b := st.2.1
  let c := st.2.2.1
  let d := st.2.2.2
  let f :=
    if i < 16 then (b &&& c) ||| (not32 b &&& d)
    else if i < 32 then (d &&& b) ||| (not32 d &&& c)
    else if i < 48 then b ^^^ c ^^^ d
    else c ^^^ (b ||| not32 d)
  let g :=
    if i < 16 then i
    else if i < 32 then (5 * i + 1) % 16
    else if i < 48 then (3 * i + 5) % 16
    else (7 * i) % 16
  let tmp := (f + a + md5K.getD i 0 + m.getD g 0) % 4294967296
  (d, (b + rotl32 tmp (md5Shift.getD i 0)) % 4294967296, b, c)

/-- Processes one 64-byte block, updating the running MD5 state. -/
def md5Block (st : Nat × Nat × Nat × Nat) (block : List Nat) :
    Nat × Nat × Nat × Nat :=
  let m := bytesToWords block
  let r := (List.range 64).foldl (md5Round m) st
  ((st.1 + r.1) % 4294967296, (st.2.1 + r.2.1) % 4294967296,
   (st.2.2.1 + r.2.2.1) % 4294967296, (st.2.2.2 + r.2.2.2) % 4294967296)

/-- The MD5 digest of a byte list, as the list of its 16 bytes. -/
def md5Bytes (msg : List Nat) : List Nat :=
  let st := (chunks64 (md5Pad msg)).foldl md5Block
    (0x67452301, 0xefcdab89, 0x98badcfe, 0x10325476)
  le4 st.1 ++ le4 st.2.1 ++ le4 st.2.2.1 ++ le4 st.2.2.2

/-- A hexadecimal digit character for a value below 16, lowercase. -/
def hexDigit (n : Nat) : Char :=
  if n < 10 then Char.ofNat (48 + n) else Char.ofNat (87 + n)

/-- Lowercase hexadecimal rendering of a byte list, two digits per
byte. -/
def bytesToHex (bs : List Nat) : List Char :=
  bs.flatMap (fun b => [hexDigit (b / 16), hexDigit (b % 16)])

/-- The characters of hashlib.md5 hexdigest of the UTF-8 encoding of
a string. -/
def md5HexChars (s : String) : List Char := bytesToHex (md5Bytes (strBytes s))

/-! ## Graph builder (lines 5 to 13 and 55 to 80)

The Python dict deps is embedded as a list of key-value pairs in
insertion order (Python dicts preserve insertion order and have
unique keys).  The imperative string accumulation becomes foldl over
that list.  The hash map built in the first loop of
generate_graphviz_graph associates every key with a value computed
purely from that key, so precomputing it before the loops is
equivalent to building it during the first loop; the node line of
each iteration only uses the hash of that iteration's own name. -/

/-- The style preamble constant GRAPHVIZ_GRAPH_SETTINGS, lines 7 to 13. -/
def GRAPHVIZ_GRAPH_SETTINGS : String :=
  "\n    rankdir=LR;\n    overlap=false;\n    splines=true;\n    node [shape=box, style=\"rounded,filled\", fillcolor=lightblue, fontname=\"Arial\"];\n    edge [fontname=\"Arial\", fontsize=10];\n"

/-- The hashed node identifier of line 66: an underscore followed by
the first eight characters of the MD5 hexdigest of the UTF-8 service
name (the hexdigest is ASCII, so the Python slice of the first eight
characters is the take of the first eight characters). -/
def hashed_name (service_name : String) : String :=
  String.mk ('_' :: (md5HexChars service_name).take 8)

/-- The node declaration emitted on line 69 for one service. -/
def node_line (service_name : String) : String :=
  "    " ++ hashed_name service_name ++ " [label=\"" ++ service_name ++ "\"];\n"

/-- The name-to-hash map built in the loop of lines 63 to 67. -/
def build_hash_map (deps : List (String × List String)) : List (String × String) :=
  deps.map (fun p => (p.1, hashed_name p.1))

/-- The edge declaration text of line 77, given the two hashed
endpoint identifiers. -/
def edge_line (service_hash dependency_hash : String) : String :=
  "    " ++ service_hash ++ " -> " ++ dependency_hash ++ "\n"

/-- The inner loop of lines 74 to 77 for one service: looks up each
dependency in the hash map and appends an edge only when the lookup
succeeds.  The service hash lookup of line 73 cannot fail because the
hash map holds every key of deps; getD only totalizes it. -/
def service_edges_text (hash_map : List (String × String)) (service_name : String)
    (dependencies : List String) : String :=
  let service_hash := (List.lookup service_name hash_map).getD ""
  dependencies.foldl (fun g dependency =>
    match List.lookup dependency hash_map with
    | some dependency_hash => g ++ edge_line service_hash dependency_hash
    | none => g) ""

/-- Embedding of generate_graphviz_graph, lines 55 to 80: the header,
the style preamble, one node declaration per service in map order,
the edge declarations, and the closing brace. -/
def generate_graphviz_graph (deps : List (String × List String)) : String :=
  let graph := "digraph G \x7b\n"
  let graph := graph ++ GRAPHVIZ_GRAPH_SETTINGS
  let hash_map := build_hash_map deps
  let graph := deps.foldl (fun g p => g ++ node_line p.1) graph
  let graph := deps.foldl (fun g p => g ++ service_edges_text hash_map p.1 p.2) graph
  graph ++ "\x7d"

/-- The text contributed to the edge section by one dependency d of a
service whose hashed identifier is service_hash: the edge line when d
is a key of the hash map, nothing otherwise (restructured view of the
conditional append of lines 74 to 77; see service_edges_text_eq_join). -/
def dep_edge_text (hm : List (String × String)) (service_hash : String) (d : String) : String :=
  match List.lookup d hm with
  | some dependency_hash => edge_line service_hash dependency_hash
  | none => ""

/-- The hashed endpoint pairs of all emitted edges, in emission order
(structured view of the edge loop; see generate_graphviz_graph_eq). -/
def edge_pairs (deps : List (String × List String)) : List (String × String) :=
  deps.flatMap (fun p => p.2.filterMap (fun d =>
    match List.lookup d (build_hash_map deps) with
    | some dh => some ((List.lookup p.1 (build_hash_map deps)).getD "", dh)
    | none => none))

/-- A lowercase hexadecimal digit: a decimal digit or a letter from a
to f. -/
def isLowerHexDigit (c : Char) : Bool :=
  c.isDigit || (decide ('a' ≤ c) && decide (c ≤ 'f'))

/-! ## Helper lemmas: substring search -/

theorem containsSub_of_isPrefixOf {pat cs : List Char} (h : pat.isPrefixOf cs = true) :
    containsSub pat cs = true := by
  cases cs with
  | nil => simpa [containsSub] using h
  | cons c rest => simp [containsSub, h]

theorem containsSub_cons {pat : List Char} (c : Char) {cs : List Char}
    (h : containsSub pat cs = true) : containsSub pat (c :: cs) = true := by
  simp [containsSub, h]

theorem containsSub_append_left {pat t : List Char} (u : List Char)
    (h : containsSub pat t = true) : containsSub pat (u ++ t) = true := by
  induction u with
  | nil => simpa using h
  | cons c u ih => simpa [List.cons_append] using containsSub_cons c ih

theorem containsSub_of_split {pat l : List Char} (a b : List Char)
    (h : l = a ++ (pat ++ b)) : containsSub pat l = true := by
  subst h
  exact containsSub_append_left a
    (containsSub_of_isPrefixOf (List.isPrefixOf_iff_prefix.mpr (List.prefix_append pat b)))

theorem containsSub_tail {pat : List Char} (c : Char) {cs : List Char}
    (h : containsSub pat (c :: cs) = false) : containsSub pat cs = false := by
  rw [containsSub, Bool.or_eq_false_iff] at h
  exact h.2

/-! ## Helper lemmas: the Python replace with pattern ".ts" -/

theorem stripTsL_append_ts :
    ∀ (g : List Char), containsTsL g = false →
      stripTsL (g ++ ('.' :: 't' :: 's' :: [])) = g := by
  intro g
  induction g with
  | nil => intro _; rfl
  | cons c cs ih =>
    intro h
    match cs, ih, h with
    | [], _, _ =>
      show stripTsL (c :: '.' :: 't' :: 's' :: []) = [c]
      simp [stripTsL]
    | [c2], _, _ =>
      show stripTsL (c :: c2 :: '.' :: 't' :: 's' :: []) = [c, c2]
      simp [stripTsL]
    | c2 :: c3 :: cs3, ih, h =>
      rw [containsTsL] at h
      simp only [Bool.or_eq_false_iff, decide_eq_false_iff_not] at h
      obtain ⟨h1, h2⟩ := h
      show stripTsL (c :: c2 :: c3 :: (cs3 ++ ('.' :: 't' :: 's' :: []))) = c :: c2 :: c3 :: cs3
      rw [stripTsL, if_neg h1]
      have := ih h2
      rw [List.cons_append, List.cons_append] at this
      rw [this]

/-! ## Helper lemmas: the import matcher -/

theorem dropLit_suffix :
    ∀ (ls cs r : List Char), dropLit ls cs = some r → r <:+ cs := by
  intro ls
  induction ls with
  | nil =>
    intro cs r h
    rw [dropLit] at h
    cases h
    exact List.suffix_refl _
  | cons l ls ih =>
    intro cs r h
    cases cs with
    | nil => exact absurd h (by rw [dropLit]; exact Option.noConfusion)
    | cons c cs2 =>
      rw [dropLit] at h
      split at h
      · exact (ih cs2 r h).trans (List.suffix_cons c cs2)
      · exact absurd h Option.noConfusion

theorem munch1_suffix {p : Char → Bool} {cs r : List Char}
    (h : munch1 p cs = some r) : r <:+ cs := by
  cases cs with
  | nil => exact absurd h (by rw [munch1]; exact Option.noConfusion)
  | cons c cs2 =>
    rw [munch1] at h
    split at h
    · cases h
      exact (List.dropWhile_suffix p).trans (List.suffix_cons c cs2)
    · exact absurd h Option.noConfusion

theorem bindingForm_suffix {cs r : List Char}
    (h : bindingForm cs = some r) : r <:+ cs := by
  cases cs with
  | nil => exact absurd h (by rw [bindingForm]; exact Option.noConfusion)
  | cons c cs2 =>
    rw [bindingForm] at h
    split at h
    · split at h
      · exact absurd h Option.noConfusion
      · rename_i x rest heq
        cases h
        have h1 : x :: r <:+ cs2 := heq ▸ List.dropWhile_suffix _
        exact ((List.suffix_cons x r).trans h1).trans (List.suffix_cons c cs2)
    · split at h
      · cases h
        exact (List.dropWhile_suffix isWordChar).trans (List.suffix_cons c cs2)
      · exact absurd h Option.noConfusion

theorem expectChar_eq {a : Char} {cs r : List Char}
    (h : expectChar a cs = some r) : cs = a :: r := by
  cases cs with
  | nil => exact absurd h (by rw [expectChar]; exact Option.noConfusion)
  | cons c cs2 =>
    rw [expectChar] at h
    split at h
    · cases h
      rename_i hc
      rw [hc]
    · exact absurd h Option.noConfusion

theorem expectPred_suffix {p : Char → Bool} {cs r : List Char}
    (h : expectPred p cs = some r) : r <:+ cs := by
  cases cs with
  | nil => exact absurd h (by rw [expectPred]; exact Option.noConfusion)
  | cons c cs2 =>
    rw [expectPred] at h
    split at h
    · cases h
      exact List.suffix_cons _ _
    · exact absurd h Option.noConfusion

theorem matchAt_dotSlash {cs : List Char} {pr : List Char × List Char}
    (h : matchAt cs = some pr) :
    containsSub ('.' :: '/' :: []) cs = true := by
  unfold matchAt at h
  simp only [Option.bind_eq_some] at h
  obtain ⟨cs1, h1, cs2, h2, cs3, h3, cs4, h4, cs5, h5, cs6, h6, cs7, h7,
    cs8, h8, cs9, h9, cap, hcap, cs11, h11, hpr⟩ := h
  have e7 : cs7 = '.' :: cs8 := expectChar_eq h8
  have e8 : cs8 = '/' :: cs9 := expectChar_eq h9
  have s7 : cs7 <:+ cs :=
    ((((((expectPred_suffix h7).trans (munch1_suffix h6)).trans
      (dropLit_suffix _ _ _ h5)).trans (munch1_suffix h4)).trans
      (bindingForm_suffix h3)).trans (munch1_suffix h2)).trans
      (dropLit_suffix _ _ _ h1)
  obtain ⟨u, hu⟩ := s7
  exact containsSub_of_split u cs9 (by rw [← hu, e7, e8]; rfl)

theorem findallFuel_succ (f : Nat) (cs : List Char) :
    findallFuel (f + 1) cs =
      match matchAt cs with
      | some (cap, rest) => cap :: findallFuel f rest
      | none =>
        match cs with
        | [] => []
        | _ :: cs2 => findallFuel f cs2 := rfl

theorem findallFuel_nil_of_no_dotSlash :
    ∀ (fuel : Nat) (cs : List Char),
      containsSub ('.' :: '/' :: []) cs = false → findallFuel fuel cs = [] := by
  intro fuel
  induction fuel with
  | zero => intro cs _; rfl
  | succ f ih =>
    intro cs h
    cases hm : matchAt cs with
    | some pr =>
      rw [matchAt_dotSlash hm] at h
      exact absurd h (by simp)
    | none =>
      cases cs with
      | nil => rfl
      | cons c cs2 =>
        rw [findallFuel_succ, hm]
        exact ih cs2 (containsSub_tail c h)

theorem captureNoQuote1_suffix {cs : List Char} {pr : List Char × List Char}
    (h : captureNoQuote1 cs = some pr) : pr.2 <:+ cs := by
  cases cs with
  | nil => exact absurd h (by rw [captureNoQuote1]; exact Option.noConfusion)
  | cons c cs2 =>
    rw [captureNoQuote1] at h
    split at h
    · exact absurd h Option.noConfusion
    · cases h
      exact (List.dropWhile_suffix _).trans (List.suffix_cons c cs2)

theorem dropLit_cons_length {l : Char} {ls cs r : List Char}
    (h : dropLit (l :: ls) cs = some r) : r.length < cs.length := by
  cases cs with
  | nil => exact absurd h (by rw [dropLit]; exact Option.noConfusion)
  | cons c cs2 =>
    rw [dropLit] at h
    split at h
    · have := (dropLit_suffix ls cs2 r h).length_le
      rw [List.length_cons]
      omega
    · exact absurd h Option.noConfusion

theorem matchAt_length {cs : List Char} {pr : List Char × List Char}
    (h : matchAt cs = some pr) : pr.2.length < cs.length := by
  unfold matchAt at h
  simp only [Option.bind_eq_some] at h
  obtain ⟨cs1, h1, cs2, h2, cs3, h3, cs4, h4, cs5, h5, cs6, h6, cs7, h7,
    cs8, h8, cs9, h9, cap, hcap, cs11, h11, hpr⟩ := h
  have hpr2 : pr.2 = cs11 := by
    injection hpr with hpr1
    rw [← hpr1]
  have e7 : cs7 = '.' :: cs8 := expectChar_eq h8
  have e8 : cs8 = '/' :: cs9 := expectChar_eq h9
  have s11 : cs11 <:+ cs1 :=
    ((((((((expectPred_suffix h11).trans (captureNoQuote1_suffix hcap)).trans
      (e8 ▸ List.suffix_cons '/' cs9)).trans
      (e7 ▸ List.suffix_cons '.' cs8)).trans
      (expectPred_suffix h7)).trans (munch1_suffix h6)).trans
      ((dropLit_suffix _ _ _ h5).trans (munch1_suffix h4))).trans
      (bindingForm_suffix h3)).trans (munch1_suffix h2)
  have l1 : cs1.length < cs.length := dropLit_cons_length h1
  have := s11.length_le
  rw [hpr2]
  omega

theorem findallFuel_nil_fuel : ∀ (f : Nat), findallFuel f [] = [] := by
  intro f
  cases f with
  | zero => rfl
  | succ f2 => exact findallFuel_succ f2 [] |>.trans rfl

theorem findallFuel_fuel_irrel :
    ∀ (f : Nat) (cs : List Char), cs.length ≤ f →
      findallFuel f cs = findallFuel cs.length cs := by
  intro f
  induction f using Nat.strong_induction_on with
  | _ f ih =>
    intro cs hle
    cases cs with
    | nil => rw [findallFuel_nil_fuel, findallFuel_nil_fuel]
    | cons c cs2 =>
      cases f with
      | zero => exact absurd hle (by rw [List.length_cons]; omega)
      | succ f2 =>
        rw [List.length_cons] at hle ⊢
        rw [findallFuel_succ, findallFuel_succ]
        cases hm : matchAt (c :: cs2) with
        | some pr =>
          obtain ⟨cap, rest⟩ := pr
          have hlt : rest.length < cs2.length + 1 := by
            have := matchAt_length hm
            rw [List.length_cons] at this
            exact this
          have ih1 : findallFuel f2 rest = findallFuel rest.length rest :=
            ih f2 (by omega) rest (by omega)
          have ih2 : findallFuel cs2.length rest = findallFuel rest.length rest :=
            ih cs2.length (by omega) rest (by omega)
          show cap :: findallFuel f2 rest = cap :: findallFuel cs2.length rest
          rw [ih1, ih2]
        | none =>
          show findallFuel f2 cs2 = findallFuel cs2.length cs2
          exact ih f2 (by omega) cs2 (by omega)

/-! ## Helper lemmas: string folds and joins -/

theorem foldl_sappend (l : List String) :
    ∀ (init : String),
      l.foldl (fun r s => r ++ s) init = init ++ l.foldl (fun r s => r ++ s) "" := by
  induction l with
  | nil => intro init; exact (String.append_empty init).symm
  | cons a l ih =>
    intro init
    simp only [List.foldl_cons]
    rw [ih (init ++ a), ih ("" ++ a), String.empty_append, String.append_assoc]

theorem join_cons (a : String) (l : List String) :
    String.join (a :: l) = a ++ String.join l := by
  show (a :: l).foldl (fun r s => r ++ s) "" = a ++ l.foldl (fun r s => r ++ s) ""
  simp only [List.foldl_cons]
  rw [foldl_sappend l ("" ++ a), String.empty_append]

theorem join_append (l1 l2 : List String) :
    String.join (l1 ++ l2) = String.join l1 ++ String.join l2 := by
  induction l1 with
  | nil => exact (String.empty_append _).symm
  | cons a l1 ih =>
    rw [List.cons_append, join_cons, join_cons, ih, String.append_assoc]

theorem foldl_append_eq_join {α : Type} (f : α → String) :
    ∀ (l : List α) (init : String),
      l.foldl (fun g x => g ++ f x) init = init ++ String.join (l.map f) := by
  intro l
  induction l with
  | nil => intro init; exact (String.append_empty init).symm
  | cons x xs ih =>
    intro init
    simp only [List.foldl_cons, List.map_cons]
    rw [ih, join_cons, String.append_assoc]

theorem containsSub_eq_true_iff {pat l : List Char} :
    containsSub pat l = true ↔ ∃ a b, l = a ++ (pat ++ b) := by
  constructor
  · induction l with
    | nil =>
      intro h
      rw [containsSub] at h
      have hp : pat <+: ([] : List Char) := List.isPrefixOf_iff_prefix.mp h
      exact ⟨[], [], by simpa using (List.prefix_nil.mp hp).symm⟩
    | cons c rest ih =>
      intro h
      rw [containsSub, Bool.or_eq_true] at h
      rcases h with h | h
      · obtain ⟨t, ht⟩ := List.isPrefixOf_iff_prefix.mp h
        exact ⟨[], t, by rw [← ht]; rfl⟩
      · obtain ⟨a, b, hab⟩ := ih h
        exact ⟨c :: a, b, by rw [hab]; rfl⟩
  · rintro ⟨a, b, rfl⟩
    exact containsSub_of_split a b rfl

theorem containsSub_append_string {pat : List Char} {m : String} (u v : String)
    (h : containsSub pat m.data = true) :
    containsSub pat (u ++ m ++ v).data = true := by
  obtain ⟨a, b, hab⟩ := containsSub_eq_true_iff.mp h
  apply containsSub_eq_true_iff.mpr
  refine ⟨u.data ++ a, b ++ v.data, ?_⟩
  simp only [String.data_append, hab, List.append_assoc]

theorem containsSub_join_of_mem {x : String} {l : List String} (h : x ∈ l) :
    containsSub x.data (String.join l).data = true := by
  obtain ⟨l1, l2, rfl⟩ := List.append_of_mem h
  rw [join_append, join_cons]
  rw [← String.append_assoc]
  apply containsSub_append_string
  exact containsSub_eq_true_iff.mpr ⟨[], [], by simp⟩

/-! ## Helper lemmas: the hash map and edge emission -/

theorem lookup_build_hash_map (deps : List (String × List String)) (d : String) :
    List.lookup d (build_hash_map deps)
      = if d ∈ deps.map Prod.fst then some (hashed_name d) else none := by
  induction deps with
  | nil => simp [build_hash_map]
  | cons p ps ih =>
    by_cases hd : d = p.1
    · subst hd
      simp [build_hash_map, List.lookup]
    · simp only [build_hash_map, List.map_cons, List.lookup] at *
      rw [show (d == p.1) = false from beq_eq_false_iff_ne.mpr hd]
      simp only [List.mem_cons, hd, false_or]
      exact ih

theorem service_edges_text_eq_join (hm : List (String × String)) (s : String)
    (ds : List String) :
    service_edges_text hm s ds
      = String.join (ds.map (dep_edge_text hm ((List.lookup s hm).getD ""))) := by
  show ds.foldl (fun g dependency =>
      match List.lookup dependency hm with
      | some dependency_hash =>
          g ++ edge_line ((List.lookup s hm).getD "") dependency_hash
      | none => g) "" = _
  have hfun : (fun (g : String) (dependency : String) =>
        match List.lookup dependency hm with
        | some dependency_hash =>
            g ++ edge_line ((List.lookup s hm).getD "") dependency_hash
        | none => g)
      = (fun (g : String) (d : String) =>
          g ++ dep_edge_text hm ((List.lookup s hm).getD "") d) := by
    funext g d
    rw [dep_edge_text]
    cases List.lookup d hm with
    | none => exact (String.append_empty g).symm
    | some dh => rfl
  rw [hfun, foldl_append_eq_join, String.empty_append]

theorem dep_edge_text_eq (deps : List (String × List String)) (sh d : String) :
    dep_edge_text (build_hash_map deps) sh d
      = if d ∈ deps.map Prod.fst then edge_line sh (hashed_name d) else "" := by
  rw [dep_edge_text, lookup_build_hash_map]
  by_cases hd : d ∈ deps.map Prod.fst
  · simp [hd]
  · simp [hd]

theorem join_map_filter {α : Type} (q : α → Bool) (h : α → String) (ds : List α) :
    String.join (ds.map (fun d => if q d then h d else ""))
      = String.join ((ds.filter q).map h) := by
  induction ds with
  | nil => rfl
  | cons d ds ih =>
    by_cases hq : q d
    · simp only [List.map_cons, List.filter_cons, hq, if_true, if_pos, join_cons, ih]
    · simp only [List.map_cons, List.filter_cons, hq, if_false, Bool.false_eq_true,
        join_cons, ih, String.empty_append]

theorem generate_graphviz_graph_eq (deps : List (String × List String)) :
    generate_graphviz_graph deps
      = "digraph G \x7b\n" ++ GRAPHVIZ_GRAPH_SETTINGS
        ++ String.join (deps.map (fun p => node_line p.1))
        ++ String.join (deps.map (fun p =>
            service_edges_text (build_hash_map deps) p.1 p.2))
        ++ "\x7d" := by
  show (deps.foldl (fun g p => g ++ service_edges_text (build_hash_map deps) p.1 p.2)
      (deps.foldl (fun g p => g ++ node_line p.1)
        ("digraph G \x7b\n" ++ GRAPHVIZ_GRAPH_SETTINGS))) ++ "\x7d" = _
  have h1 := foldl_append_eq_join (fun p : String × List String => node_line p.1) deps
  have h2 := foldl_append_eq_join
    (fun p : String × List String =>
      service_edges_text (build_hash_map deps) p.1 p.2) deps
  rw [h1, h2]

theorem join_dep_edges_filterMap (hm : List (String × String)) (sh : String)
    (ds : List String) :
    String.join (ds.map (dep_edge_text hm sh))
      = String.join ((ds.filterMap (fun d =>
          match List.lookup d hm with
          | some dh => some (sh, dh)
          | none => none)).map (fun q => edge_line q.1 q.2)) := by
  induction ds with
  | nil => rfl
  | cons d ds ih =>
    rw [List.map_cons, join_cons, List.filterMap_cons]
    cases hl : List.lookup d hm with
    | none =>
      simp only [dep_edge_text, hl, String.empty_append]
      exact ih
    | some dh =>
      simp only [dep_edge_text, hl, List.map_cons, join_cons]
      rw [ih]

theorem join_flatMap_edges (hm : List (String × String)) :
    ∀ (l : List (String × List String)),
      String.join (l.map (fun p => service_edges_text hm p.1 p.2))
        = String.join ((l.flatMap (fun p => p.2.filterMap (fun d =>
            match List.lookup d hm with
            | some dh => some ((List.lookup p.1 hm).getD "", dh)
            | none => none))).map (fun q => edge_line q.1 q.2)) := by
  intro l
  induction l with
  | nil => rfl
  | cons p ps ih =>
    rw [List.map_cons, join_cons, List.flatMap_cons, List.map_append, join_append]
    rw [service_edges_text_eq_join, join_dep_edges_filterMap, ih]

theorem join_edge_pairs (deps : List (String × List String)) :
    String.join (deps.map (fun p =>
        service_edges_text (build_hash_map deps) p.1 p.2))
      = String.join ((edge_pairs deps).map (fun q => edge_line q.1 q.2)) := by
  rw [edge_pairs]
  exact join_flatMap_edges (build_hash_map deps) deps

/-! ## Helper lemmas: shape of the MD5 hexdigest -/

theorem hexDigit_isLowerHex {n : Nat} (h : n < 16) :
    isLowerHexDigit (hexDigit n) = true := by
  interval_cases n <;> decide

theorem bytesToHex_props :
    ∀ (bs : List Nat), (∀ b ∈ bs, b < 256) →
      (bytesToHex bs).length = 2 * bs.length ∧
      ∀ c ∈ bytesToHex bs, isLowerHexDigit c = true := by
  intro bs
  induction bs with
  | nil =>
    intro _
    exact ⟨rfl, by intro c hc; simp [bytesToHex] at hc⟩
  | cons b bs ih =>
    intro hb
    have hb0 : b < 256 := hb b (List.mem_cons_self b bs)
    have hrest := ih (fun x hx => hb x (List.mem_cons_of_mem b hx))
    constructor
    · rw [bytesToHex, List.flatMap_cons]
      rw [bytesToHex] at hrest
      simp only [List.length_append, List.length_cons, List.length_nil, hrest.1]
      omega
    · intro c hc
      rw [bytesToHex, List.flatMap_cons] at hc
      rw [List.mem_append] at hc
      rcases hc with hc | hc
      · rcases List.mem_cons.mp hc with h1 | hc2
        · exact h1 ▸ hexDigit_isLowerHex (by omega)
        · rcases List.mem_cons.mp hc2 with h2 | h3
          · exact h2 ▸ hexDigit_isLowerHex (by omega)
          · simp at h3
      · exact hrest.2 c hc

theorem le4_concat_props (a b c d : Nat) :
    (le4 a ++ le4 b ++ le4 c ++ le4 d).length = 16 ∧
    ∀ x ∈ le4 a ++ le4 b ++ le4 c ++ le4 d, x < 256 := by
  constructor
  · simp [le4]
  · intro x hx
    simp only [le4, List.mem_append, List.mem_cons, List.not_mem_nil, or_false] at hx
    rcases hx with ((h|h|h|h)|(h|h|h|h))|(h|h|h|h)|(h|h|h|h) <;> omega

theorem md5Bytes_props (msg : List Nat) :
    (md5Bytes msg).length = 16 ∧ ∀ b ∈ md5Bytes msg, b < 256 :=
  le4_concat_props _ _ _ _

theorem md5HexChars_props (s : String) :
    (md5HexChars s).length = 32 ∧
    ∀ c ∈ md5HexChars s, isLowerHexDigit c = true := by
  obtain ⟨hlen, hlt⟩ := md5Bytes_props (strBytes s)
  obtain ⟨hl2, hhex⟩ := bytesToHex_props (md5Bytes (strBytes s)) hlt
  refine ⟨?_, fun c hc => hhex c hc⟩
  rw [md5HexChars, hl2, hlen]

/-! ## Helper lemmas: miscellaneous -/

theorem collectServiceNames_eq_map :
    ∀ (ms : List String), collectServiceNames ms = ms.map replace_ts := by
  intro ms
  induction ms with
  | nil => rfl
  | cons m ms ih => rw [collectServiceNames, List.map_cons, ih]

theorem stripTsL_id_of_not_contains :
    ∀ (g : List Char), containsTsL g = false → stripTsL g = g := by
  intro g
  induction g with
  | nil => intro _; rfl
  | cons c cs ih =>
    intro h
    match cs, ih, h with
    | [], _, _ => rfl
    | [c2], _, _ => rfl
    | c2 :: c3 :: cs3, ih, h =>
      rw [containsTsL] at h
      simp only [Bool.or_eq_false_iff, decide_eq_false_iff_not] at h
      obtain ⟨h1, h2⟩ := h
      rw [stripTsL, if_neg h1, ih h2]

/-! ## Claims -/

set_option maxRecDepth 100000

set_option maxHeartbeats 2000000

/-- Claim C1 (counterexample): the round-trip law fails as stated.
The filename "a.ts.ts" ends in ".ts", but get_service_names removes
every occurrence of ".ts" (Python replace), yielding "a", and
re-appending ".ts" gives "a.ts", not "a.ts.ts". -/
theorem c1_round_trip_counterexample :
    pyEndsWith "a.ts.ts" ".ts" = true ∧
    get_service_names ["a.ts.ts"] = ["a"] ∧
    (get_service_names ["a.ts.ts"]).map (fun n => n ++ ".ts") ≠ ["a.ts.ts"] := by
  decide

/-- Claim C1 (amended): name extraction removes every occurrence of
".ts", so the round-trip law holds exactly for filenames whose only
occurrence of ".ts" is the trailing extension: for every filename of
the form g ++ ".ts" where ".ts" does not occur in g, applying
get_service_names and re-appending ".ts" reproduces the filename. -/
theorem c1_round_trip_amended (g : List Char) (h : containsTsL g = false) :
    (get_service_names [String.mk (g ++ ('.' :: 't' :: 's' :: []))]).map
        (fun n => n ++ ".ts")
      = [String.mk (g ++ ('.' :: 't' :: 's' :: []))] := by
  rw [get_service_names, List.map_cons, List.map_nil, List.map_cons, List.map_nil]
  show [String.mk (stripTsL (g ++ ('.' :: 't' :: 's' :: []))) ++ ".ts"] = _
  rw [stripTsL_append_ts g h]
  rfl

/-- Claim C1 witness: the amended round trip at the concrete filename
"a.ts". -/
theorem c1_round_trip_amended_witness :
    containsTsL ('a' :: []) = false ∧
    (get_service_names [String.mk (('a' :: []) ++ ('.' :: 't' :: 's' :: []))]).map
        (fun n => n ++ ".ts")
      = [String.mk (('a' :: []) ++ ('.' :: 't' :: 's' :: []))] :=
  ⟨by decide, c1_round_trip_amended ('a' :: []) (by decide)⟩

/-- Claim C2 (counterexample): non-trailing occurrences of ".ts" are
not preserved.  The captured path "bar.tsx" does not end in ".ts", so
the claim predicts it is appended unchanged, but the code appends
"barx" (Python replace removes the inner ".ts"). -/
theorem c2_strip_counterexample :
    get_service_dependencies "import Y from './bar.tsx'" = ["barx"] ∧
    "barx" ≠ "bar.tsx" := by
  decide

/-- Claim C2 (amended): the value appended for each captured import
path is the path with every occurrence of ".ts" removed (leftmost,
non-overlapping), not only a trailing suffix: a path with a trailing
".ts" and no other occurrence yields the path without the suffix, a
path with no occurrence at all is unchanged, and "./bar.ts" yields
"bar". -/
theorem c2_strip_amended (g : List Char) (h : containsTsL g = false) :
    (∀ content : String,
        get_service_dependencies content = (findall content).map replace_ts) ∧
    replace_ts (String.mk (g ++ ('.' :: 't' :: 's' :: []))) = String.mk g ∧
    replace_ts (String.mk g) = String.mk g ∧
    get_service_dependencies "import Y from './bar.ts'" = ["bar"] := by
  refine ⟨?_, ?_, ?_, by decide⟩
  · intro content
    rw [get_service_dependencies, collectServiceNames_eq_map]
  · show String.mk (stripTsL (g ++ ('.' :: 't' :: 's' :: []))) = String.mk g
    rw [stripTsL_append_ts g h]
  · show String.mk (stripTsL g) = String.mk g
    rw [stripTsL_id_of_not_contains g h]

/-- Claim C2 witness: the amended statement at the concrete path
"bar". -/
theorem c2_strip_amended_witness :
    containsTsL ('b' :: 'a' :: 'r' :: []) = false ∧
    replace_ts (String.mk (('b' :: 'a' :: 'r' :: []) ++ ('.' :: 't' :: 's' :: [])))
      = String.mk ('b' :: 'a' :: 'r' :: []) ∧
    get_service_dependencies "import Y from './bar.ts'" = ["bar"] := by
  have h := c2_strip_amended ('b' :: 'a' :: 'r' :: []) (by decide)
  exact ⟨by decide, h.2.1, h.2.2.2⟩

/-- Claim C5: the file enumerator returns exactly the filenames of the
listing that end in ".ts" and do not end in ".test.ts": membership in
the result is equivalent to membership in the listing together with
the two suffix conditions, for every directory listing. -/
theorem c5_enumerator_filter (dirListing : List String) (f : String) :
    f ∈ get_ts_files dirListing ↔
      f ∈ dirListing ∧ pyEndsWith f ".ts" = true ∧ pyEndsWith f ".test.ts" = false := by
  rw [get_ts_files, List.mem_filter]
  simp only [Bool.and_eq_true, Bool.not_eq_true']

/-- Claim C6: the dependency parser never matches an import whose path
does not start with "./": any content with no occurrence of the two
characters dot slash produces no match at all, and the concrete
external-package example returns the empty sequence. -/
theorem c6_no_local_import_no_match :
    (∀ content : String, containsSub ('.' :: '/' :: []) content.data = false →
        get_service_dependencies content = []) ∧
    get_service_dependencies "import Z from 'external-package'" = [] := by
  constructor
  · intro content h
    rw [get_service_dependencies, findall,
      findallFuel_nil_of_no_dotSlash content.data.length content.data h]
    rfl
  · decide

/-- Claim C6 witness: the general statement at the concrete content
"import Z from 'external-package'". -/
theorem c6_no_local_import_no_match_witness :
    containsSub ('.' :: '/' :: []) ("import Z from 'external-package'").data = false ∧
    get_service_dependencies "import Z from 'external-package'" = [] :=
  ⟨by decide,
    c6_no_local_import_no_match.1 "import Z from 'external-package'" (by decide)⟩

/-- Claim C7: the parser returns "foo" for the brace import of
"./foo"; captures are emitted in source order; duplicate import paths
are kept; and in general the returned sequence is the capture list
with the extension strip applied elementwise, preserving order and
multiplicity. -/
theorem c7_parser_order_and_duplicates :
    get_service_dependencies "import \x7b X \x7d from './foo'" = ["foo"] ∧
    get_service_dependencies
        "import \x7bX\x7d from './dup'\nimport \x7bY\x7d from './dup'\n"
      = ["dup", "dup"] ∧
    get_service_dependencies
        "import \x7bX\x7d from './one'\nimport \x7bY\x7d from './two'\n"
      = ["one", "two"] ∧
    (∀ content : String,
        get_service_dependencies content = (findall content).map replace_ts) := by
  refine ⟨by decide, by decide, by decide, ?_⟩
  intro content
  rw [get_service_dependencies, collectServiceNames_eq_map]

/-- Claim C8: for every dependency map the emitted output is the
directed-graph header, the style preamble emitted once, one node
declaration per service in map order, then all edge declarations,
then the closing brace; for the empty map the output is exactly the
header, the preamble and the braces with no node and no edge
declarations; and every output starts with the text digraph. -/
theorem c8_graph_structure :
    (∀ deps : List (String × List String),
        generate_graphviz_graph deps
          = "digraph G \x7b\n" ++ GRAPHVIZ_GRAPH_SETTINGS
            ++ String.join (deps.map (fun p => node_line p.1))
            ++ String.join (deps.map (fun p =>
                service_edges_text (build_hash_map deps) p.1 p.2))
            ++ "\x7d") ∧
    generate_graphviz_graph []
      = "digraph G \x7b\n" ++ GRAPHVIZ_GRAPH_SETTINGS ++ "\x7d" ∧
    (∀ deps : List (String × List String),
        ("digraph".data).isPrefixOf (generate_graphviz_graph deps).data = true) := by
  refine ⟨generate_graphviz_graph_eq, by decide, ?_⟩
  intro deps
  rw [generate_graphviz_graph_eq deps]
  apply List.isPrefixOf_iff_prefix.mpr
  have step : ∀ (l s1 s2 : List Char), l <+: s1 → l <+: s1 ++ s2 :=
    fun l s1 s2 h => h.trans (List.prefix_append s1 s2)
  simp only [String.data_append]
  have h1 : ("digraph".data) <+: ("digraph G \x7b\n".data) := by decide
  exact step _ _ _ (step _ _ _ (step _ _ _ (step _ _ _ h1)))

/-- Claim C4: edge emission keeps exactly the pairs whose dependency
is a key of the hash map, compared by string equality: for a service
s of the map, the emitted edge text over a dependency list equals the
edge lines of exactly the dependencies that are keys; in the concrete
two-service scenario with dependency list b and zzz, only the edge to
b is emitted and the text zzz occurs nowhere in the whole graph. -/
theorem c4_edges_only_known (deps : List (String × List String)) (s : String)
    (ds : List String) (hs : s ∈ deps.map Prod.fst) :
    service_edges_text (build_hash_map deps) s ds
      = String.join ((ds.filter (fun d => decide (d ∈ deps.map Prod.fst))).map
          (fun d => edge_line (hashed_name s) (hashed_name d))) ∧
    service_edges_text (build_hash_map [("a", ["b", "zzz"]), ("b", [])]) "a" ["b", "zzz"]
      = edge_line (hashed_name "a") (hashed_name "b") ∧
    containsSub ('z' :: 'z' :: 'z' :: [])
      (generate_graphviz_graph [("a", ["b", "zzz"]), ("b", [])]).data = false := by
  refine ⟨?_, by decide, by decide⟩
  rw [service_edges_text_eq_join, lookup_build_hash_map, if_pos hs, Option.getD_some]
  rw [← join_map_filter]
  congr 1
  apply List.map_congr_left
  intro d _
  rw [dep_edge_text_eq]
  by_cases hd : d ∈ deps.map Prod.fst
  · simp [hd]
  · simp [hd]

/-- Claim C4 witness: the general edge characterization at the
concrete two-service map. -/
theorem c4_edges_only_known_witness :
    ("a" ∈ ([("a", ["b", "zzz"]), ("b", [])].map Prod.fst)) ∧
    service_edges_text (build_hash_map [("a", ["b", "zzz"]), ("b", [])]) "a" ["b", "zzz"]
      = String.join (((["b", "zzz"].filter (fun d =>
          decide (d ∈ ([("a", ["b", "zzz"]), ("b", [])].map Prod.fst))))).map
          (fun d => edge_line (hashed_name "a") (hashed_name d))) := by
  have h := c4_edges_only_known [("a", ["b", "zzz"]), ("b", [])] "a" ["b", "zzz"] (by decide)
  exact ⟨by decide, h.1⟩

/-- Claim C3 (counterexample): the node identifier is not the bare
first eight hexdigest characters: for the one-service map with name a
the emitted node declaration carries the identifier underscore
0cc175b9, which differs from the first eight characters 0cc175b9 of
the MD5 hexdigest of a. -/
theorem c3_identifier_counterexample :
    generate_graphviz_graph [("a", [])]
      = "digraph G \x7b\n" ++ GRAPHVIZ_GRAPH_SETTINGS
        ++ "    _0cc175b9 [label=\"a\"];\n" ++ "\x7d" ∧
    String.mk ((md5HexChars "a").take 8) = "0cc175b9" ∧
    hashed_name "a" ≠ String.mk ((md5HexChars "a").take 8) := by
  decide

/-- Claim C3 (amended): for every service of the map, the node
declaration in the emitted graph uses as identifier an underscore
followed by the first eight characters of the MD5 hexdigest of the
UTF-8 service name, and carries the original name as the quoted
label. -/
theorem c3_identifier_amended (deps : List (String × List String)) (s : String)
    (hs : s ∈ deps.map Prod.fst) :
    node_line s
      = "    " ++ String.mk ('_' :: (md5HexChars s).take 8)
        ++ " [label=\"" ++ s ++ "\"];\n" ∧
    containsSub (node_line s).data (generate_graphviz_graph deps).data = true := by
  refine ⟨rfl, ?_⟩
  rw [generate_graphviz_graph_eq deps]
  have hmem : node_line s ∈ deps.map (fun p => node_line p.1) := by
    rw [List.mem_map] at hs ⊢
    obtain ⟨p, hp, hps⟩ := hs
    exact ⟨p, hp, by rw [hps]⟩
  obtain ⟨a, b, hab⟩ := containsSub_eq_true_iff.mp (containsSub_join_of_mem hmem)
  apply containsSub_eq_true_iff.mpr
  refine ⟨("digraph G \x7b\n" ++ GRAPHVIZ_GRAPH_SETTINGS).data ++ a,
    b ++ (String.join (deps.map (fun p =>
      service_edges_text (build_hash_map deps) p.1 p.2)) ++ "\x7d").data, ?_⟩
  simp only [String.data_append, hab, List.append_assoc]

/-- Claim C3 witness: the amended statement at the one-service map
with name a. -/
theorem c3_identifier_amended_witness :
    ("a" ∈ ([("a", ([] : List String))].map Prod.fst)) ∧
    containsSub (node_line "a").data (generate_graphviz_graph [("a", [])]).data = true := by
  have h := c3_identifier_amended [("a", ([] : List String))] "a" (by decide)
  exact ⟨by decide, h.2⟩

/-- Claim C9: in every output of the graph builder both endpoints of
every emitted edge also appear as declared node identifiers: the
output is the header, the preamble, the node declarations, the
rendered edge pairs and the closing brace, and every edge pair has
both components among the hashed names of the declared services. -/
theorem c9_edge_endpoints_declared :
    (∀ deps : List (String × List String),
        generate_graphviz_graph deps
          = "digraph G \x7b\n" ++ GRAPHVIZ_GRAPH_SETTINGS
            ++ String.join (deps.map (fun p => node_line p.1))
            ++ String.join ((edge_pairs deps).map (fun q => edge_line q.1 q.2))
            ++ "\x7d") ∧
    (∀ (deps : List (String × List String)) (h1 h2 : String),
        (h1, h2) ∈ edge_pairs deps →
          h1 ∈ deps.map (fun p => hashed_name p.1) ∧
          h2 ∈ deps.map (fun p => hashed_name p.1)) := by
  constructor
  · intro deps
    rw [generate_graphviz_graph_eq deps, join_edge_pairs deps]
  · intro deps h1 h2 hmem
    rw [edge_pairs, List.mem_flatMap] at hmem
    obtain ⟨p, hp, hin⟩ := hmem
    rw [List.mem_filterMap] at hin
    obtain ⟨d, _, heq⟩ := hin
    cases hl : List.lookup d (build_hash_map deps) with
    | none => rw [hl] at heq; exact absurd heq Option.noConfusion
    | some dh =>
      rw [hl] at heq
      injection heq with heq2
      have e1 : (List.lookup p.1 (build_hash_map deps)).getD "" = h1 :=
        congrArg Prod.fst heq2
      have e2 : dh = h2 := congrArg Prod.snd heq2
      rw [lookup_build_hash_map] at hl
      by_cases hdm : d ∈ deps.map Prod.fst
      · rw [if_pos hdm] at hl
        injection hl with hl2
        constructor
        · have hp1 : p.1 ∈ deps.map Prod.fst := List.mem_map_of_mem Prod.fst hp
          rw [lookup_build_hash_map, if_pos hp1, Option.getD_some] at e1
          rw [← e1]
          exact List.mem_map.mpr ⟨p, hp, rfl⟩
        · rw [← e2, ← hl2]
          rw [List.mem_map] at hdm
          obtain ⟨q, hq, hqd⟩ := hdm
          rw [← hqd]
          exact List.mem_map.mpr ⟨q, hq, rfl⟩
      · rw [if_neg hdm] at hl
        exact absurd hl Option.noConfusion

/-- Claim C9 witness: the endpoint property at the concrete map with
services a and b and the single edge from a to b. -/
theorem c9_edge_endpoints_declared_witness :
    ((hashed_name "a", hashed_name "b") ∈ edge_pairs [("a", ["b"]), ("b", [])]) ∧
    hashed_name "a" ∈ ([("a", ["b"]), ("b", [])].map (fun p => hashed_name p.1)) ∧
    hashed_name "b" ∈ ([("a", ["b"]), ("b", [])].map (fun p => hashed_name p.1)) := by
  have hpairs : edge_pairs [("a", ["b"]), ("b", [])]
      = [(hashed_name "a", hashed_name "b")] := rfl
  have hmem : (hashed_name "a", hashed_name "b") ∈ edge_pairs [("a", ["b"]), ("b", [])] := by
    rw [hpairs]
    exact List.mem_cons_self _ _
  have h := c9_edge_endpoints_declared.2 [("a", ["b"]), ("b", [])]
    (hashed_name "a") (hashed_name "b") hmem
  exact ⟨hmem, h.1, h.2⟩

/-- Claim C10: for every service name the node identifier computed by
the graph builder is an underscore followed by exactly eight lowercase
hexadecimal characters: it has length nine, its first character is the
underscore (so it never begins with a digit), and every remaining
character is a lowercase hexadecimal digit. -/
theorem c10_identifier_shape (s : String) :
    (hashed_name s).data.length = 9 ∧
    (hashed_name s).data.head? = some '_' ∧
    ∀ c ∈ (hashed_name s).data.tail, isLowerHexDigit c = true := by
  obtain ⟨hlen, hhex⟩ := md5HexChars_props s
  refine ⟨?_, rfl, ?_⟩
  · show ('_' :: (md5HexChars s).take 8).length = 9
    rw [List.length_cons, List.length_take, hlen]
    omega
  · intro c hc
    exact hhex c (List.take_subset 8 (md5HexChars s) hc)

end ResolveDeps
